import Mathlib

/-!
Shallow embedding of `labels.py` (a GitHub-label maintenance tool) and proofs
about its core logic: Markdown-link stripping, the record validator
(`lint_labels`), the upstream W3C merge (`import_w3c_labels`) and the remote
sync loop (`adjust_repository_labels`).

A label record is a Python dict; the code only ever reads the five keys
`name`, `description`, `color`, `w3c`, `url_exclude_is_open`, so a record is
modelled by those five fields, each `Option` (absent key = `none`).  The two
flag fields are read only via `x != True`, so their value space is modelled
as `Bool`.  Strings are Lean `String`s (Python `len` counts code points, as
does `String.length`; `str.lower` is modelled by `strLower`, lower-casing
character by character).
-/

deriving instance DecidableEq for Except

namespace Labels

structure Label where
  name : Option String
  description : Option String
  color : Option String
  w3c : Option Bool
  url_exclude_is_open : Option Bool
deriving DecidableEq, Repr

/-- `str.lower()`, character by character. -/
def strLower (s : String) : String := String.mk (s.data.map Char.toLower)

/-- Characters matched by `.` in a Python regex without DOTALL: anything but a
newline. -/
def noNl (l : List Char) : Bool := l.all (fun c => c ≠ '\n')

/-- Greedy matching of the `\(.+\)`-suffix of the pattern: try the longest
body for `.+` first (the body may not contain a newline and must be followed
by a literal `)`); returns the residue after the closing `)`. -/
def tryB : List Char → Nat → Option (List Char)
  | _, 0 => none
  | l, Nat.succ b =>
    if noNl (l.take (b+1)) && ((l.drop (b+1)).head? == some ')') then
      some ((l.drop (b+1)).tail)
    else tryB l b

/-- Greedy matching of `(.+)\]\(.+\)` against `l` (the text right after a
literal `[`): try the longest capture for the group first; on success return
the captured group and the residue after the whole match. -/
def tryA : List Char → Nat → Option (List Char × List Char)
  | _, 0 => none
  | l, Nat.succ a =>
    let rest := l.drop (a+1)
    if noNl (l.take (a+1)) && (rest.head? == some ']') && (rest.tail.head? == some '(') then
      match tryB rest.tail.tail (rest.tail.tail).length with
      | some after => some (l.take (a+1), after)
      | none => tryA l a
    else tryA l a

/-- One left-to-right pass of `re.sub(r"\[(.+)\]\(.+\)", r"\1", ·)`:
at each `[` attempt a greedy match, replace it by the captured group and
resume after the match; otherwise copy one character.  `fuel` bounds the
number of steps; every step consumes at least one input character, so
`fuel = length` never runs out. -/
def subAllFuel : Nat → List Char → List Char
  | 0, cs => cs
  | _ + 1, [] => []
  | fuel + 1, c :: rest =>
    if c = '[' then
      match tryA rest rest.length with
      | some (a, after) => a ++ subAllFuel fuel after
      | none => c :: subAllFuel fuel rest
    else c :: subAllFuel fuel rest

/-- `remove_markdown_links` from `labels.py`:
`re.sub(r"\[(.+)\]\(.+\)", r"\1", input)`. -/
def remove_markdown_links (input : String) : String :=
  ⟨subAllFuel input.data.length input.data⟩

/-!
## The validator (`lint_labels`)

Each loop iteration of `lint_labels` prints at most one diagnostic, chosen by
an `if`/`elif` chain.  The six distinct diagnostic texts are modelled as the
constructors of `Violation`; the `label["name"]` interpolated into a message
becomes the constructor's argument.
-/

inductive Violation where
  | missingName
  | missingDescription (name : String)
  | descriptionTooLong (name : String)
  | missingColor (name : String)
  | badUrlExcludeIsOpen (name : String)
  | badW3c (name : String)
deriving DecidableEq, Repr

/-- Models a Python `label[key]` dict access: `KeyError` (here `Except.error`)
when the key is absent. -/
def dictGet {α : Type} (v : Option α) : Except Unit α :=
  match v with
  | some a => Except.ok a
  | none => Except.error ()

/-- The body of one `lint_labels` loop iteration, with every `label[...]`
dict access modelled fallibly through `dictGet` (so a `KeyError` surfaces as
`Except.error`).  `"k" in label` tests are `isSome` and never fail. -/
def lintLabelAccess (label : Label) : Except Unit (Option Violation) :=
  if label.name.isSome = false then
    Except.ok (some Violation.missingName)
  else if label.description.isSome = false then
    (dictGet label.name).map (fun n => some (Violation.missingDescription n))
  else
    match dictGet label.description with
    | Except.error e => Except.error e
    | Except.ok d =>
      if (remove_markdown_links d).length > 100 then
        (dictGet label.name).map (fun n => some (Violation.descriptionTooLong n))
      else if label.color.isSome = false then
        (dictGet label.name).map (fun n => some (Violation.missingColor n))
      else if label.url_exclude_is_open.isSome && !(label.url_exclude_is_open == some true) then
        (dictGet label.name).map (fun n => some (Violation.badUrlExcludeIsOpen n))
      else if label.w3c.isSome && !(label.w3c == some true) then
        (dictGet label.name).map (fun n => some (Violation.badW3c n))
      else
        Except.ok none

/-- Total form of one `lint_labels` iteration (the chain never actually hits a
`KeyError`; theorem `lintLabelAccess_total` below proves the two agree). -/
def lintLabel (label : Label) : Option Violation :=
  match label.name with
  | none => some Violation.missingName
  | some n =>
    match label.description with
    | none => some (Violation.missingDescription n)
    | some d =>
      if (remove_markdown_links d).length > 100 then
        some (Violation.descriptionTooLong n)
      else if label.color.isSome = false then
        some (Violation.missingColor n)
      else if label.url_exclude_is_open.isSome && !(label.url_exclude_is_open == some true) then
        some (Violation.badUrlExcludeIsOpen n)
      else if label.w3c.isSome && !(label.w3c == some true) then
        some (Violation.badW3c n)
      else
        none

/-- `lint_labels` from `labels.py`: the list of diagnostics printed, in
order (one loop iteration per record, at most one diagnostic each). -/
def lint_labels (labels : List Label) : List Violation :=
  labels.filterMap lintLabel

/-- `lint_labels` with fallible dict accesses, for the totality claim. -/
def lint_labels_access (labels : List Label) : Except Unit (List Violation) :=
  match labels with
  | [] => Except.ok []
  | l :: rest =>
    match lintLabelAccess l, lint_labels_access rest with
    | Except.ok v, Except.ok vs => Except.ok (v.toList ++ vs)
    | Except.error e, _ => Except.error e
    | _, Except.error e => Except.error e

/-!
## The merger (`import_w3c_labels`)

The Python process dies either with a `KeyError` (a record misses a key the
code reads) or with the `assert False, "W3C label present that's no longer
upstream"` consistency check; both abort before anything is written back.
-/

inductive MergeError where
  | keyError
  | consistency
deriving DecidableEq, Repr

/-- `w3c_label_index[n] = i`: a Python dict keeps the position of the first
insertion of a key and updates its value in place. -/
def insertIdx (idx : List (String × Nat)) (n : String) (i : Nat) : List (String × Nat) :=
  match idx with
  | [] => [(n, i)]
  | (m, j) :: rest => if m = n then (m, i) :: rest else (m, j) :: insertIdx rest n i

/-- `n in w3c_label_index` / `w3c_label_index[n]`. -/
def lookupIdx (idx : List (String × Nat)) (n : String) : Option Nat :=
  match idx with
  | [] => none
  | (m, j) :: rest => if m = n then some j else lookupIdx rest n

/-- `del w3c_label_index[n]` (the key occurs at most once in a dict). -/
def removeIdx (idx : List (String × Nat)) (n : String) : List (String × Nat) :=
  match idx with
  | [] => []
  | (m, j) :: rest => if m = n then rest else (m, j) :: removeIdx rest n

/-- The index-building loop of `import_w3c_labels`: `w3c_label_index[label["name"]] = i`
for each upstream label in order. -/
def buildIndexAux (ls : List Label) (i : Nat) (idx : List (String × Nat)) :
    Except MergeError (List (String × Nat)) :=
  match ls with
  | [] => Except.ok idx
  | l :: rest =>
    match l.name with
    | none => Except.error MergeError.keyError
    | some n => buildIndexAux rest (i + 1) (insertIdx idx n i)

def buildIndex (ls : List Label) : Except MergeError (List (String × Nat)) :=
  buildIndexAux ls 0 []

/-- The per-local-record loop of `import_w3c_labels`: merge upstream data into
a matching local record (consuming the index entry), leave other records
alone, and hit the consistency `assert` when a record carrying a `w3c` key is
not found upstream.  Returns the updated records plus the unconsumed index. -/
def mergeLoop (locals : List Label) (idx : List (String × Nat)) (ups : List Label) :
    Except MergeError (List Label × List (String × Nat)) :=
  match locals with
  | [] => Except.ok ([], idx)
  | l :: rest =>
    match l.name with
    | none => Except.error MergeError.keyError
    | some n =>
      match lookupIdx idx n with
      | some j =>
        match ups[j]? with
        | none => Except.error MergeError.keyError
        | some u =>
          match u.description, u.color with
          | some d, some c =>
            match mergeLoop rest (removeIdx idx n) ups with
            | Except.error e => Except.error e
            | Except.ok (rest', idx') =>
              Except.ok ({ l with description := some d,
                                  color := some (strLower c),
                                  w3c := some true } :: rest', idx')
          | _, _ => Except.error MergeError.keyError
      | none =>
        if l.w3c.isSome then Except.error MergeError.consistency
        else
          match mergeLoop rest idx ups with
          | Except.error e => Except.error e
          | Except.ok (rest', idx') => Except.ok (l :: rest', idx')

/-- The trailing loop of `import_w3c_labels`: each unconsumed index entry
(in dict iteration order = first-insertion order) appends a fresh record
built from the upstream label it points at. -/
def appendNew (idx : List (String × Nat)) (ups : List Label) :
    Except MergeError (List Label) :=
  match idx with
  | [] => Except.ok []
  | (_, j) :: rest =>
    match ups[j]? with
    | none => Except.error MergeError.keyError
    | some u =>
      match u.name, u.description, u.color with
      | some nm, some d, some c =>
        match appendNew rest ups with
        | Except.error e => Except.error e
        | Except.ok ls =>
          Except.ok ({ name := some nm,
                       description := some d,
                       color := some (strLower c),
                       w3c := some true,
                       url_exclude_is_open := none } :: ls)
      | _, _, _ => Except.error MergeError.keyError

/-- The in-memory merge of `import_w3c_labels` (everything up to the
`update_labels` call): index the upstream feed, update local records,
append the unconsumed upstream records. -/
def mergeW3C (local_labels w3c_labels : List Label) : Except MergeError (List Label) :=
  match buildIndex w3c_labels with
  | Except.error e => Except.error e
  | Except.ok idx =>
    match mergeLoop local_labels idx w3c_labels with
    | Except.error e => Except.error e
    | Except.ok (updated, idxRem) =>
      match appendNew idxRem w3c_labels with
      | Except.error e => Except.error e
      | Except.ok news => Except.ok (updated ++ news)

/-- `labels.sort(key=lambda x: x["name"])` from `update_labels` (the merge
always produces named records, so the total key is faithful; Python sort is
stable, as is `List.mergeSort`). -/
def sortByName (labels : List Label) : List Label :=
  labels.mergeSort (fun a b => a.name.getD "" ≤ b.name.getD "")

/-- `import_w3c_labels`: the merge followed by the `update_labels`
persistence step (sorting by name and writing back).  The result is the
persisted record list; an error means the process died before writing. -/
def import_w3c_labels (local_labels w3c_labels : List Label) :
    Except MergeError (List Label) :=
  match mergeW3C local_labels w3c_labels with
  | Except.error e => Except.error e
  | Except.ok merged => Except.ok (sortByName merged)

/-!
## The diff/sync engine (`adjust_repository_labels`)

The remote label store is reached through `fetch`: a DELETE on a label name
(`delete_label`), a PATCH on a label name (`update_label`) or a POST of a new
label (`add_label`).  Each request is an `Op`; the store's behaviour is an
oracle `resp` giving the HTTP status of the next request as a function of the
requests issued so far.  A run produces the request trace, the list of
`error(...)` reports, and a flag telling whether the per-record loop ran to
completion (`false` = a `KeyError` killed it). -/

inductive Op where
  | delete (name : String)
  | update (name : String) (label : Label)
  | create (label : Label)
deriving DecidableEq, Repr

/-- One `error(type, label_name, status)` report, tagged by its `type`
string (`"Deleting"` / `"Updating"` / `"Adding"`). -/
inductive RemoteFailure where
  | deleting (name : String) (status : Nat)
  | updating (name : String) (status : Nat)
  | adding (name : String) (status : Nat)
deriving DecidableEq, Repr

/-- The store's behaviour: the status code of a request, given the requests
already issued in this run. -/
def Resp : Type := List Op → Op → Nat

/-- The fixed default GitHub labels deleted at the start of every sync run. -/
def defaultLabels : List String :=
  ["bug", "duplicate", "enhancement", "help wanted", "invalid", "question", "wontfix"]

/-- The opening loop of `adjust_repository_labels`: `delete_label` for each
default label name; a status other than 200 and 404 is reported.  `t` is the
trace of requests issued before this loop. -/
def deletePhase (resp : Resp) : List String → List Op → List Op × List RemoteFailure
  | [], _ => ([], [])
  | n :: rest, t =>
    let s := resp t (Op.delete n)
    let step := deletePhase resp rest (t ++ [Op.delete n])
    (Op.delete n :: step.1,
     (if s ≠ 200 && s ≠ 404 then [RemoteFailure.deleting n s] else []) ++ step.2)

/-- The per-record mutation done just before the PATCH: strip Markdown links
from the description and drop the `url_exclude_is_open` key. -/
def sanitize (l : Label) (d : String) : Label :=
  { l with description := some (remove_markdown_links d), url_exclude_is_open := none }

/-- The update-or-create loop of `adjust_repository_labels`: for each record,
sanitize it, PATCH it (`update_label`); on 404 POST it (`add_label`,
reporting any status other than 201); on any other non-200 status report an
update failure.  Reading a missing `description` or `name` key kills the
loop (`false` flag).  `t` is the trace of requests issued before the loop. -/
def updatePhase (resp : Resp) : List Op → List Label → List Op × List RemoteFailure × Bool
  | _, [] => ([], [], true)
  | t, l :: rest =>
    match l.description with
    | none => ([], [], false)
    | some d =>
      let l1 := sanitize l d
      match l1.name with
      | none => ([], [], false)
      | some n =>
        let u := Op.update n l1
        let s := resp t u
        if s = 404 then
          let c := Op.create l1
          let s2 := resp (t ++ [u]) c
          let step := updatePhase resp (t ++ [u, c]) rest
          (u :: c :: step.1,
           (if s2 ≠ 201 then [RemoteFailure.adding n s2] else []) ++ step.2.1,
           step.2.2)
        else if s ≠ 200 then
          let step := updatePhase resp (t ++ [u]) rest
          (u :: step.1, RemoteFailure.updating n s :: step.2.1, step.2.2)
        else
          let step := updatePhase resp (t ++ [u]) rest
          (u :: step.1, step.2.1, step.2.2)

/-- `adjust_repository_labels`: delete the default labels, lint the local
records (purely diagnostic — its messages are returned as the third
component and do not gate anything), then update-or-create each record. -/
def adjust_repository_labels (resp : Resp) (labels : List Label) :
    List Op × List RemoteFailure × List Violation × Bool :=
  let del := deletePhase resp defaultLabels []
  let lint := lint_labels labels
  let step := updatePhase resp del.1 labels
  (del.1 ++ step.1, del.2 ++ step.2.1, lint, step.2.2)

/-!
## Reference (spec-side) definitions

These follow the wording of the specification, to be compared with the
definitions above, which follow the code.
-/

/-- The six validator checks of §4.1 as independent checks, listed in the
spec's order; a record's diagnostic is the first `some` among them. -/
def specChecks (l : Label) : List (Option Violation) :=
  let n := l.name.getD ""
  [ if l.name.isSome then none else some Violation.missingName,
    if l.description.isSome then none else some (Violation.missingDescription n),
    if (remove_markdown_links (l.description.getD "")).length ≤ 100 then none
      else some (Violation.descriptionTooLong n),
    if l.color.isSome then none else some (Violation.missingColor n),
    if l.url_exclude_is_open = some false then some (Violation.badUrlExcludeIsOpen n)
      else none,
    if l.w3c = some false then some (Violation.badW3c n) else none ]

/-!
## Markdown-link stripping (claim C7)
-/

theorem subAllFuel_no_bracket :
    ∀ (fuel : Nat) (cs : List Char), '[' ∉ cs → subAllFuel fuel cs = cs
  | 0, _, _ => rfl
  | _ + 1, [], _ => rfl
  | fuel + 1, c :: rest, h => by
    have hc : ¬ c = '[' := fun e => h (e ▸ List.mem_cons_self c rest)
    simp only [subAllFuel, if_neg hc]
    rw [subAllFuel_no_bracket fuel rest (fun m => h (List.mem_cons_of_mem _ m))]

/-- C7 counterexample: the substitution is greedy, so two Markdown links on
one line are swallowed by a single match; the claimed result `"a b"` (both
links stripped) is not what the code produces. -/
theorem C7_counterexample :
    remove_markdown_links "[a](u) [b](v)" = "a](u) [b" ∧
    remove_markdown_links "[a](u) [b](v)" ≠ "a b" := by
  constructor <;> decide

/-- C7 (amended): `remove_markdown_links` performs a single non-recursive
left-to-right pass replacing each greedy match of `\[(.+)\]\(.+\)` by its
capture group.  A string without `[` is unchanged;
`"[fetch](https://x/y) spec"` maps to `"fetch spec"`; two links on separate
lines are both stripped; but two links on the same line are merged into one
greedy match, so `"[a](u) [b](v)"` maps to `"a](u) [b"`, not `"a b"`. -/
theorem C7_amended :
    (∀ s : String, '[' ∉ s.data → remove_markdown_links s = s) ∧
    remove_markdown_links "[fetch](https://x/y) spec" = "fetch spec" ∧
    remove_markdown_links "[a](u)\n[b](v)" = "a\nb" ∧
    remove_markdown_links "[a](u) [b](v)" = "a](u) [b" := by
  refine ⟨fun s h => ?_, by decide, by decide, by decide⟩
  obtain ⟨d⟩ := s
  show String.mk (subAllFuel d.length d) = String.mk d
  rw [subAllFuel_no_bracket _ _ h]

/-- C7 witness: the no-bracket clause of `C7_amended` at a concrete string. -/
theorem C7_witness :
    '[' ∉ "plain text".data ∧ remove_markdown_links "plain text" = "plain text" :=
  ⟨by decide, C7_amended.1 "plain text" (by decide)⟩

/-!
## The validator (claims C8, C9, C10)
-/

theorem lintLabel_eq_specChecks (l : Label) :
    lintLabel l = (specChecks l).findSome? id := by
  obtain ⟨n, d, c, w, u⟩ := l
  cases n with
  | none => simp [lintLabel, specChecks, List.findSome?]
  | some nm =>
    cases d with
    | none => simp [lintLabel, specChecks, List.findSome?]
    | some ds =>
      simp only [lintLabel, specChecks, List.findSome?, Option.getD_some,
        Option.isSome_some, if_true, id]
      by_cases hlen : (remove_markdown_links ds).length > 100
      · simp [hlen, Nat.not_le.mpr hlen]
      · simp only [hlen, if_false, if_neg hlen, Nat.not_lt.mp hlen, if_pos (Nat.not_lt.mp hlen)]
        cases c with
        | none => simp
        | some cv =>
          simp only [Option.isSome_some, if_true]
          rcases u with _ | _ | _ <;> rcases w with _ | _ | _ <;> simp

/-- C8: the validator evaluates, per record, the six §4.1 checks in their
stated order; the first failing check yields the record's single diagnostic,
no diagnostic is produced when all pass, and every record of the set is
processed (later records are still validated after a failure). -/
theorem C8_check_order (labels : List Label) :
    lint_labels labels = labels.filterMap (fun l => (specChecks l).findSome? id) := by
  unfold lint_labels
  induction labels with
  | nil => rfl
  | cons l rest ih =>
    simp only [List.filterMap_cons, ih]
    rw [lintLabel_eq_specChecks]

/-- C9 counterexample: a record with `name`, `description`, `color` all
present and a short description still draws a diagnostic when it carries
`url_exclude_is_open = false`, contradicting the claim's "no violation"
clause. -/
theorem C9_counterexample :
    lint_labels [⟨some "x", some "d", some "fff", none, some false⟩] =
      [Violation.badUrlExcludeIsOpen "x"] ∧
    lint_labels [⟨some "x", some "d", some "fff", none, some false⟩] ≠ [] := by
  constructor <;> decide

theorem lintLabel_missing (l : Label)
    (h : l.name = none ∨ l.description = none ∨ l.color = none) :
    ∃ v, lintLabel l = some v := by
  obtain ⟨n, d, c, w, u⟩ := l
  cases n with
  | none => exact ⟨_, rfl⟩
  | some nm =>
    cases d with
    | none => exact ⟨_, rfl⟩
    | some ds =>
      have hc : c = none := by
        rcases h with h | h | h
        · exact absurd h (by simp)
        · exact absurd h (by simp)
        · exact h
      subst hc
      by_cases hlen : (remove_markdown_links ds).length > 100
      · exact ⟨Violation.descriptionTooLong nm, by simp [lintLabel, if_pos hlen]⟩
      · exact ⟨Violation.missingColor nm, by simp [lintLabel, if_neg hlen]⟩

/-- C9 (amended): for every record set, each record missing `name`,
`description` or `color` contributes a violation of its own to the report
list, and no record that has all three, a stripped description of at most
100 characters, and no present-but-false `url_exclude_is_open` or `w3c`
flag contributes any violation. -/
theorem C9_amended (labels : List Label) :
    (∀ l ∈ labels, (l.name = none ∨ l.description = none ∨ l.color = none) →
      ∃ v, lintLabel l = some v ∧ v ∈ lint_labels labels) ∧
    (∀ l ∈ labels,
      l.name.isSome = true → l.description.isSome = true → l.color.isSome = true →
      (remove_markdown_links (l.description.getD "")).length ≤ 100 →
      l.url_exclude_is_open ≠ some false → l.w3c ≠ some false →
      lintLabel l = none) := by
  constructor
  · intro l hl hmiss
    obtain ⟨v, hv⟩ := lintLabel_missing l hmiss
    exact ⟨v, hv, List.mem_filterMap.mpr ⟨l, hl, hv⟩⟩
  · intro l _ hn hd hc hlen hu hw
    obtain ⟨n, d, c, w, u⟩ := l
    cases n with
    | none => exact absurd hn (by simp)
    | some nm =>
      cases d with
      | none => exact absurd hd (by simp)
      | some ds =>
        cases c with
        | none => exact absurd hc (by simp)
        | some cv =>
          simp only [Option.getD_some] at hlen
          simp only [lintLabel, if_neg (Nat.not_lt.mpr hlen), Option.isSome_some,
            Bool.not_eq_true]
          rcases u with _ | _ | _ <;> rcases w with _ | _ | _ <;> simp_all

/-- C9 witness: `C9_amended` applied to a concrete two-record set, one record
missing its name and one fully well-formed. -/
theorem C9_witness :
    lintLabel ⟨some "g", some "desc", some "ffffff", none, none⟩ = none :=
  (C9_amended [⟨some "g", some "desc", some "ffffff", none, none⟩]).2
    _ (List.mem_singleton.mpr rfl) (by decide) (by decide) (by decide)
    (by decide) (by decide) (by decide)

theorem lintLabelAccess_total (l : Label) :
    lintLabelAccess l = Except.ok (lintLabel l) := by
  obtain ⟨n, d, c, w, u⟩ := l
  cases n with
  | none => cases d <;> rfl
  | some nm =>
    cases d with
    | none => rfl
    | some ds =>
      by_cases hlen : (remove_markdown_links ds).length > 100
      · simp [lintLabelAccess, lintLabel, dictGet, if_pos hlen, Except.map]
      · cases c <;> rcases u with _ | _ | _ <;> rcases w with _ | _ | _ <;>
          simp [lintLabelAccess, lintLabel, dictGet, if_neg hlen, Except.map]

/-- C10: the validator is total on arbitrary record lists — every
`label[...]` access it performs is guarded by an earlier presence check, so
the fallible-access model never raises a missing-key error and agrees with
the total validator on every input. -/
theorem C10_lint_total (labels : List Label) :
    lint_labels_access labels = Except.ok (lint_labels labels) := by
  induction labels with
  | nil => rfl
  | cons l rest ih =>
    simp only [lint_labels_access, lint_labels, ih, lintLabelAccess_total,
      List.filterMap_cons]
    cases lintLabel l <;> simp [lint_labels]

/-!
## Merge infrastructure lemmas (claims C1, C2, C3)
-/

/-- The names present in a record set. -/
def namesOf (ls : List Label) : List String := ls.filterMap (fun l => l.name)

theorem mem_namesOf {ls : List Label} {u : Label} {n : String}
    (hu : u ∈ ls) (hn : u.name = some n) : n ∈ namesOf ls :=
  List.mem_filterMap.mpr ⟨u, hu, hn⟩

theorem lookupIdx_mem {idx : List (String × Nat)} {n : String} {j : Nat}
    (h : lookupIdx idx n = some j) : (n, j) ∈ idx := by
  induction idx with
  | nil => simp [lookupIdx] at h
  | cons q rest ih =>
    obtain ⟨m, k⟩ := q
    simp only [lookupIdx] at h
    split at h
    · rename_i hm
      subst hm
      cases h
      exact List.mem_cons_self _ _
    · exact List.mem_cons_of_mem _ (ih h)

theorem lookupIdx_eq_none : ∀ (idx : List (String × Nat)) (n : String),
    (∀ p ∈ idx, p.1 ≠ n) → lookupIdx idx n = none := by
  intro idx n
  induction idx with
  | nil => intro _; rfl
  | cons q rest ih =>
    intro h
    obtain ⟨m, k⟩ := q
    have hm : m ≠ n := h (m, k) (List.mem_cons_self _ _)
    simp only [lookupIdx, if_neg hm]
    exact ih (fun p hp => h p (List.mem_cons_of_mem _ hp))

theorem mem_insertIdx : ∀ (idx : List (String × Nat)) (n : String) (i : Nat) (p : String × Nat),
    p ∈ insertIdx idx n i → p = (n, i) ∨ p ∈ idx := by
  intro idx n i p
  induction idx with
  | nil => intro h; simpa [insertIdx] using h
  | cons q rest ih =>
    intro h
    obtain ⟨m, k⟩ := q
    simp only [insertIdx] at h
    split at h
    · rename_i hm
      subst hm
      rcases List.mem_cons.mp h with h | h
      · exact Or.inl h
      · exact Or.inr (List.mem_cons_of_mem _ h)
    · rcases List.mem_cons.mp h with h | h
      · exact Or.inr (by simp [h])
      · rcases ih h with h' | h'
        · exact Or.inl h'
        · exact Or.inr (List.mem_cons_of_mem _ h')

theorem removeIdx_sublist (idx : List (String × Nat)) (n : String) :
    List.Sublist (removeIdx idx n) idx := by
  induction idx with
  | nil => exact List.Sublist.refl []
  | cons q rest ih =>
    obtain ⟨m, k⟩ := q
    by_cases hm : m = n
    · simp only [removeIdx, if_pos hm]
      exact (List.Sublist.refl rest).cons (m, k)
    · simp only [removeIdx, if_neg hm]
      exact ih.cons₂ (m, k)

theorem mergeLoop_idx_sublist :
    ∀ (locals : List Label) (idx : List (String × Nat)) (ups : List Label)
      (out : List Label) (idx' : List (String × Nat)),
      mergeLoop locals idx ups = Except.ok (out, idx') → List.Sublist idx' idx := by
  intro locals
  induction locals with
  | nil =>
    intro idx ups out idx' h
    simp only [mergeLoop, Except.ok.injEq, Prod.mk.injEq] at h
    exact h.2 ▸ List.Sublist.refl idx
  | cons l rest ih =>
    intro idx ups out idx' h
    cases hn : l.name with
    | none => simp [mergeLoop, hn] at h
    | some n =>
      simp only [mergeLoop, hn] at h
      cases hl : lookupIdx idx n with
      | some j =>
        simp only [hl] at h
        cases hg : ups[j]? with
        | none => simp [hg] at h
        | some u =>
          simp only [hg] at h
          cases hd : u.description with
          | none => simp [hd] at h
          | some d =>
            cases hc : u.color with
            | none => simp [hd, hc] at h
            | some c =>
              simp only [hd, hc] at h
              cases hrec : mergeLoop rest (removeIdx idx n) ups with
              | error e => simp [hrec] at h
              | ok pr =>
                obtain ⟨rest', idx''⟩ := pr
                simp only [hrec, Except.ok.injEq, Prod.mk.injEq] at h
                have := ih (removeIdx idx n) ups rest' idx'' hrec
                exact h.2 ▸ this.trans (removeIdx_sublist idx n)
      | none =>
        simp only [hl] at h
        by_cases hw : l.w3c.isSome
        · simp [if_pos hw] at h
        · simp only [if_neg hw] at h
          cases hrec : mergeLoop rest idx ups with
          | error e => simp [hrec] at h
          | ok pr =>
            obtain ⟨rest', idx''⟩ := pr
            simp only [hrec, Except.ok.injEq, Prod.mk.injEq] at h
            exact h.2 ▸ ih idx ups rest' idx'' hrec

theorem namesOf_cons_some {l : Label} {rest : List Label} {n : String}
    (hn : l.name = some n) : namesOf (l :: rest) = n :: namesOf rest := by
  simp [namesOf, List.filterMap_cons, hn]

theorem namesOf_cons_none {l : Label} {rest : List Label}
    (hn : l.name = none) : namesOf (l :: rest) = namesOf rest := by
  simp [namesOf, List.filterMap_cons, hn]

theorem buildIndexAux_keys : ∀ (ls : List Label) (i : Nat) (idx out : List (String × Nat)),
    buildIndexAux ls i idx = Except.ok out →
    ∀ p ∈ out, p.1 ∈ namesOf ls ∨ p ∈ idx := by
  intro ls
  induction ls with
  | nil =>
    intro i idx out h p hp
    simp only [buildIndexAux, Except.ok.injEq] at h
    exact Or.inr (h ▸ hp)
  | cons l rest ih =>
    intro i idx out h p hp
    cases hn : l.name with
    | none => simp [buildIndexAux, hn] at h
    | some n =>
      simp only [buildIndexAux, hn] at h
      rcases ih (i + 1) (insertIdx idx n i) out h p hp with h' | h'
      · exact Or.inl ((namesOf_cons_some hn) ▸ List.mem_cons_of_mem _ h')
      · rcases mem_insertIdx _ _ _ _ h' with h'' | h''
        · exact Or.inl ((namesOf_cons_some hn) ▸ (h'' ▸ List.mem_cons_self _ _))
        · exact Or.inr h''

theorem buildIndex_keys {ups : List Label} {out : List (String × Nat)}
    (h : buildIndex ups = Except.ok out) : ∀ p ∈ out, p.1 ∈ namesOf ups := by
  intro p hp
  rcases buildIndexAux_keys ups 0 [] out h p hp with h' | h'
  · exact h'
  · exact absurd h' (List.not_mem_nil p)

/-- The index always points back into the upstream list: every entry `(n, j)`
has `ups[j]` defined with name `n`. -/
def idxInv (idx : List (String × Nat)) (ups : List Label) : Prop :=
  ∀ p ∈ idx, ∃ u, ups[p.2]? = some u ∧ u.name = some p.1

theorem idxInv_of_sublist {idx idx' : List (String × Nat)} {ups : List Label}
    (h : idxInv idx ups) (hs : List.Sublist idx' idx) : idxInv idx' ups :=
  fun p hp => h p (hs.subset hp)

theorem buildIndexAux_inv : ∀ (ls : List Label) (i : Nat) (idx out : List (String × Nat))
    (ups : List Label), (∀ k, ls[k]? = ups[i + k]?) → idxInv idx ups →
    buildIndexAux ls i idx = Except.ok out → idxInv out ups := by
  intro ls
  induction ls with
  | nil =>
    intro i idx out ups _ hinv h
    simp only [buildIndexAux, Except.ok.injEq] at h
    exact h ▸ hinv
  | cons l rest ih =>
    intro i idx out ups halign hinv h
    cases hn : l.name with
    | none => simp [buildIndexAux, hn] at h
    | some n =>
      simp only [buildIndexAux, hn] at h
      have hget : ups[i]? = some l := by
        have := halign 0
        simpa using this.symm
      refine ih (i + 1) (insertIdx idx n i) out ups (fun k => ?_) (fun p hp => ?_) h
      · have := halign (k + 1)
        simpa [Nat.add_assoc, Nat.add_comm 1 k] using this
      · rcases mem_insertIdx _ _ _ _ hp with h' | h'
        · subst h'
          exact ⟨l, hget, hn⟩
        · exact hinv p h'

theorem buildIndex_inv {ups : List Label} {out : List (String × Nat)}
    (h : buildIndex ups = Except.ok out) : idxInv out ups := by
  refine buildIndexAux_inv ups 0 [] out ups (fun k => by simp) (fun p hp => ?_) h
  exact absurd hp (List.not_mem_nil p)

theorem buildIndexAux_ok : ∀ (ls : List Label) (i : Nat) (idx : List (String × Nat)),
    (∀ u ∈ ls, (u.name).isSome = true) →
    ∃ out, buildIndexAux ls i idx = Except.ok out := by
  intro ls
  induction ls with
  | nil => intro i idx _; exact ⟨idx, rfl⟩
  | cons l rest ih =>
    intro i idx hnames
    obtain ⟨n, hn⟩ := Option.isSome_iff_exists.mp (hnames l (List.mem_cons_self _ _))
    obtain ⟨out, hout⟩ := ih (i + 1) (insertIdx idx n i)
      (fun u hu => hnames u (List.mem_cons_of_mem _ hu))
    exact ⟨out, by simp [buildIndexAux, hn, hout]⟩

/-- If some local record carries a `w3c` key and its name is not a key of the
index, the merge loop can only die (with one of the two abort modes). -/
theorem mergeLoop_no_ok : ∀ (locals : List Label) (idx : List (String × Nat))
    (ups : List Label) (l : Label) (n : String), l ∈ locals → (l.w3c).isSome = true →
    l.name = some n → (∀ p ∈ idx, p.1 ≠ n) →
    ∃ e, mergeLoop locals idx ups = Except.error e := by
  intro locals
  induction locals with
  | nil => intro idx ups l n hmem; exact absurd hmem (List.not_mem_nil l)
  | cons l0 rest ih =>
    intro idx ups l n hmem hw hn hkeys
    cases hn0 : l0.name with
    | none => exact ⟨MergeError.keyError, by simp [mergeLoop, hn0]⟩
    | some m =>
      cases hl : lookupIdx idx m with
      | some j =>
        have hlrest : l ∈ rest := by
          rcases List.mem_cons.mp hmem with rfl | h
          · rw [hn] at hn0
            injection hn0 with hnm
            exact absurd hnm.symm (hkeys (m, j) (lookupIdx_mem hl))
          · exact h
        cases hg : ups[j]? with
        | none => exact ⟨MergeError.keyError, by simp [mergeLoop, hn0, hl, hg]⟩
        | some u =>
          cases hd : u.description with
          | none => exact ⟨MergeError.keyError, by simp [mergeLoop, hn0, hl, hg, hd]⟩
          | some d =>
            cases hc : u.color with
            | none => exact ⟨MergeError.keyError, by simp [mergeLoop, hn0, hl, hg, hd, hc]⟩
            | some c =>
              obtain ⟨e, he⟩ := ih (removeIdx idx m) ups l n hlrest hw hn
                (fun p hp => hkeys p ((removeIdx_sublist idx m).subset hp))
              exact ⟨e, by simp [mergeLoop, hn0, hl, hg, hd, hc, he]⟩
      | none =>
        by_cases hw0 : (l0.w3c).isSome = true
        · exact ⟨MergeError.consistency, by simp [mergeLoop, hn0, hl, hw0]⟩
        · have hlrest : l ∈ rest := by
            rcases List.mem_cons.mp hmem with rfl | h
            · exact absurd hw hw0
            · exact h
          obtain ⟨e, he⟩ := ih idx ups l n hlrest hw hn hkeys
          exact ⟨e, by simp [mergeLoop, hn0, hl, hw0, he]⟩

/-- Under well-formed inputs the abort is precisely the consistency
`assert`. -/
theorem mergeLoop_consistency : ∀ (locals : List Label) (idx : List (String × Nat))
    (ups : List Label) (l : Label) (n : String), l ∈ locals → (l.w3c).isSome = true →
    l.name = some n → (∀ p ∈ idx, p.1 ≠ n) →
    (∀ l' ∈ locals, (l'.name).isSome = true) → idxInv idx ups →
    (∀ u ∈ ups, (u.description).isSome = true ∧ (u.color).isSome = true) →
    mergeLoop locals idx ups = Except.error MergeError.consistency := by
  intro locals
  induction locals with
  | nil => intro idx ups l n hmem; exact absurd hmem (List.not_mem_nil l)
  | cons l0 rest ih =>
    intro idx ups l n hmem hw hn hkeys hnames hinv hwf
    obtain ⟨m, hn0⟩ := Option.isSome_iff_exists.mp (hnames l0 (List.mem_cons_self _ _))
    cases hl : lookupIdx idx m with
    | some j =>
      have hlrest : l ∈ rest := by
        rcases List.mem_cons.mp hmem with rfl | h
        · rw [hn] at hn0
          injection hn0 with hnm
          exact absurd hnm.symm (hkeys (m, j) (lookupIdx_mem hl))
        · exact h
      obtain ⟨u, hg, -⟩ := hinv (m, j) (lookupIdx_mem hl)
      obtain ⟨hd', hc'⟩ := hwf u (List.getElem?_mem hg)
      obtain ⟨d, hd⟩ := Option.isSome_iff_exists.mp hd'
      obtain ⟨c, hc⟩ := Option.isSome_iff_exists.mp hc'
      have he := ih (removeIdx idx m) ups l n hlrest hw hn
        (fun p hp => hkeys p ((removeIdx_sublist idx m).subset hp))
        (fun l' hl' => hnames l' (List.mem_cons_of_mem _ hl'))
        (idxInv_of_sublist hinv (removeIdx_sublist idx m)) hwf
      simp [mergeLoop, hn0, hl, hg, hd, hc, he]
    | none =>
      by_cases hw0 : (l0.w3c).isSome = true
      · simp [mergeLoop, hn0, hl, hw0]
      · have hlrest : l ∈ rest := by
          rcases List.mem_cons.mp hmem with rfl | h
          · exact absurd hw hw0
          · exact h
        have he := ih idx ups l n hlrest hw hn hkeys
          (fun l' hl' => hnames l' (List.mem_cons_of_mem _ hl')) hinv hwf
        simp [mergeLoop, hn0, hl, hw0, he]

/-- C2: a local record with `w3c = true` whose name is absent upstream makes
the merge abort before the persistence step — `import_w3c_labels` never
returns a record set, so nothing is written and the record is neither
dropped nor demoted; and when every local record is named and the upstream
records are well-formed, the abort is precisely the fatal consistency
error. -/
theorem C2_consistency_abort (L U : List Label) (l : Label) (n : String)
    (hmem : l ∈ L) (hw : l.w3c = some true) (hn : l.name = some n)
    (habs : n ∉ namesOf U) :
    (∀ R, import_w3c_labels L U ≠ Except.ok R) ∧
    ((∀ l' ∈ L, (l'.name).isSome = true) →
      (∀ u ∈ U, (u.name).isSome = true ∧ (u.description).isSome = true ∧
        (u.color).isSome = true) →
      import_w3c_labels L U = Except.error MergeError.consistency) := by
  have hw' : (l.w3c).isSome = true := by simp [hw]
  constructor
  · intro R hok
    cases hbi : buildIndex U with
    | error e => simp [import_w3c_labels, mergeW3C, hbi] at hok
    | ok idx =>
      have hkeys : ∀ p ∈ idx, p.1 ≠ n :=
        fun p hp hpn => habs (hpn ▸ buildIndex_keys hbi p hp)
      obtain ⟨e, he⟩ := mergeLoop_no_ok L idx U l n hmem hw' hn hkeys
      simp [import_w3c_labels, mergeW3C, hbi, he] at hok
  · intro hnames hwf
    obtain ⟨idx, hbi⟩ := buildIndexAux_ok U 0 [] (fun u hu => (hwf u hu).1)
    have hkeys : ∀ p ∈ idx, p.1 ≠ n :=
      fun p hp hpn => habs (hpn ▸ buildIndex_keys hbi p hp)
    have he := mergeLoop_consistency L idx U l n hmem hw' hn hkeys hnames
      (buildIndex_inv hbi) (fun u hu => (hwf u hu).2)
    simp [import_w3c_labels, mergeW3C, buildIndex, hbi, he]

/-- C2 witness: the spec's end-to-end scenario — a single `a11y` record
claiming `w3c` provenance against an empty upstream feed. -/
theorem C2_witness :
    import_w3c_labels [⟨some "a11y", some "[Accessibility](url) label", some "FFAA00",
      some true, none⟩] [] = Except.error MergeError.consistency :=
  (C2_consistency_abort _ [] _ "a11y" (List.mem_singleton.mpr rfl) rfl rfl
    (by simp [namesOf])).2 (by simp) (by simp)

/-- Re-merging an already-merged record list with the same index leaves it
fixed: every overwrite writes the values already present. -/
theorem mergeLoop_self : ∀ (locals : List Label) (idx : List (String × Nat))
    (ups out : List Label) (idx' : List (String × Nat)),
    mergeLoop locals idx ups = Except.ok (out, idx') →
    mergeLoop out idx ups = Except.ok (out, idx') := by
  intro locals
  induction locals with
  | nil =>
    intro idx ups out idx' h
    simp only [mergeLoop, Except.ok.injEq, Prod.mk.injEq] at h
    obtain ⟨h1, h2⟩ := h
    subst h1
    subst h2
    rfl
  | cons l rest ih =>
    intro idx ups out idx' h
    cases hn : l.name with
    | none => simp [mergeLoop, hn] at h
    | some n =>
      simp only [mergeLoop, hn] at h
      cases hl : lookupIdx idx n with
      | some j =>
        simp only [hl] at h
        cases hg : ups[j]? with
        | none => simp [hg] at h
        | some u =>
          simp only [hg] at h
          cases hd : u.description with
          | none => simp [hd] at h
          | some d =>
            cases hc : u.color with
            | none => simp [hd, hc] at h
            | some c =>
              simp only [hd, hc] at h
              cases hrec : mergeLoop rest (removeIdx idx n) ups with
              | error e => simp [hrec] at h
              | ok pr =>
                obtain ⟨rest', idxr⟩ := pr
                simp only [hrec, Except.ok.injEq, Prod.mk.injEq] at h
                obtain ⟨hout, hidx⟩ := h
                subst hout
                subst hidx
                have ihr := ih (removeIdx idx n) ups rest' idxr hrec
                simp [mergeLoop, hl, hg, hd, hc, ihr]
      | none =>
        simp only [hl] at h
        by_cases hw : (l.w3c).isSome = true
        · simp [if_pos hw] at h
        · simp only [if_neg hw] at h
          cases hrec : mergeLoop rest idx ups with
          | error e => simp [hrec] at h
          | ok pr =>
            obtain ⟨rest', idxr⟩ := pr
            simp only [hrec, Except.ok.injEq, Prod.mk.injEq] at h
            obtain ⟨hout, hidx⟩ := h
            subst hout
            subst hidx
            have ihr := ih idx ups rest' idxr hrec
            simp [mergeLoop, hn, hl, hw, ihr]

/-- The merge loop processes a concatenation sequentially, threading the
index. -/
theorem mergeLoop_append : ∀ (A B : List Label) (idx idx₁ idx₂ : List (String × Nat))
    (ups A' B' : List Label),
    mergeLoop A idx ups = Except.ok (A', idx₁) →
    mergeLoop B idx₁ ups = Except.ok (B', idx₂) →
    mergeLoop (A ++ B) idx ups = Except.ok (A' ++ B', idx₂) := by
  intro A
  induction A with
  | nil =>
    intro B idx idx₁ idx₂ ups A' B' hA hB
    simp only [mergeLoop, Except.ok.injEq, Prod.mk.injEq] at hA
    obtain ⟨h1, h2⟩ := hA
    subst h1
    subst h2
    simpa using hB
  | cons l rest ih =>
    intro B idx idx₁ idx₂ ups A' B' hA hB
    cases hn : l.name with
    | none => simp [mergeLoop, hn] at hA
    | some n =>
      simp only [mergeLoop, hn] at hA
      cases hl : lookupIdx idx n with
      | some j =>
        simp only [hl] at hA
        cases hg : ups[j]? with
        | none => simp [hg] at hA
        | some u =>
          simp only [hg] at hA
          cases hd : u.description with
          | none => simp [hd] at hA
          | some d =>
            cases hc : u.color with
            | none => simp [hd, hc] at hA
            | some c =>
              simp only [hd, hc] at hA
              cases hrec : mergeLoop rest (removeIdx idx n) ups with
              | error e => simp [hrec] at hA
              | ok pr =>
                obtain ⟨rest', idxr⟩ := pr
                simp only [hrec, Except.ok.injEq, Prod.mk.injEq] at hA
                obtain ⟨hout, hidx⟩ := hA
                subst hout
                subst hidx
                have ihr := ih B (removeIdx idx n) idxr idx₂ ups rest' B' hrec hB
                simp [List.cons_append, mergeLoop, hn, hl, hg, hd, hc, ihr]
      | none =>
        simp only [hl] at hA
        by_cases hw : (l.w3c).isSome = true
        · simp [if_pos hw] at hA
        · simp only [if_neg hw] at hA
          cases hrec : mergeLoop rest idx ups with
          | error e => simp [hrec] at hA
          | ok pr =>
            obtain ⟨rest', idxr⟩ := pr
            simp only [hrec, Except.ok.injEq, Prod.mk.injEq] at hA
            obtain ⟨hout, hidx⟩ := hA
            subst hout
            subst hidx
            have ihr := ih B idx idxr idx₂ ups rest' B' hrec hB
            simp [List.cons_append, mergeLoop, hn, hl, hw, ihr]

/-- The records appended from the unconsumed index merge to themselves: each
one consumes exactly its own index entry. -/
theorem mergeLoop_appendNew : ∀ (idx : List (String × Nat)) (ups news : List Label),
    idxInv idx ups → appendNew idx ups = Except.ok news →
    mergeLoop news idx ups = Except.ok (news, []) := by
  intro idx
  induction idx with
  | nil =>
    intro ups news _ happ
    simp only [appendNew, Except.ok.injEq] at happ
    subst happ
    rfl
  | cons p rest ih =>
    intro ups news hinv happ
    obtain ⟨n, j⟩ := p
    cases hg : ups[j]? with
    | none => simp [appendNew, hg] at happ
    | some u =>
      simp only [appendNew, hg] at happ
      cases hnm : u.name with
      | none => simp [hnm] at happ
      | some nm =>
        simp only [hnm] at happ
        cases hd : u.description with
        | none => simp [hd] at happ
        | some d =>
          cases hc : u.color with
          | none => simp [hd, hc] at happ
          | some c =>
            simp only [hd, hc] at happ
            cases hrec : appendNew rest ups with
            | error e => simp [hrec] at happ
            | ok ls =>
              simp only [hrec, Except.ok.injEq] at happ
              subst happ
              obtain ⟨u', hg', hnm'⟩ := hinv (n, j) (List.mem_cons_self _ _)
              rw [hg] at hg'
              injection hg' with hu
              subst hu
              rw [hnm] at hnm'
              injection hnm' with hnmn
              subst hnmn
              have ihr := ih ups ls
                (idxInv_of_sublist hinv ((List.Sublist.refl rest).cons (nm, j))) hrec
              simp [mergeLoop, lookupIdx, removeIdx, hg, hd, hc, ihr]

/-- C3: merge idempotence — when `mergeW3C L U` succeeds with result `R`,
merging `R` with the same upstream feed returns `R` again: every upstream
record is already represented, so each is consumed by an existing record and
nothing new is appended. -/
theorem C3_merge_idempotent (L U R : List Label) (h : mergeW3C L U = Except.ok R) :
    mergeW3C R U = Except.ok R := by
  cases hbi : buildIndex U with
  | error e => simp [mergeW3C, hbi] at h
  | ok idx =>
    simp only [mergeW3C, hbi] at h
    cases hml : mergeLoop L idx U with
    | error e => simp [hml] at h
    | ok pr =>
      obtain ⟨L', idxRem⟩ := pr
      simp only [hml] at h
      cases hap : appendNew idxRem U with
      | error e => simp [hap] at h
      | ok news =>
        simp only [hap, Except.ok.injEq] at h
        subst h
        have hinvRem := idxInv_of_sublist (buildIndex_inv hbi)
          (mergeLoop_idx_sublist L idx U L' idxRem hml)
        have h1 := mergeLoop_self L idx U L' idxRem hml
        have h2 := mergeLoop_appendNew idxRem U news hinvRem hap
        have h3 := mergeLoop_append L' news idx idxRem [] U L' news h1 h2
        simp [mergeW3C, hbi, h3, appendNew]

/-- C3 witness: the spec's adoption scenario — an empty local set adopts the
upstream `privacy` record (color lower-cased, `w3c` set), and merging the
result again with the same feed is a fixed point. -/
theorem C3_witness :
    mergeW3C [⟨some "privacy", some "Privacy review", some "d4c5f9", some true, none⟩]
      [⟨some "privacy", some "Privacy review", some "D4C5F9", none, none⟩] =
    Except.ok [⟨some "privacy", some "Privacy review", some "d4c5f9", some true, none⟩] :=
  C3_merge_idempotent [] _ _ (by rfl)

/-!
## The reference merge result (claim C1)
-/

/-- The claim's per-local-record result: a record whose name occurs upstream
has description and color (lower-cased) overwritten and `w3c` set; every
other record is unchanged. -/
def refUpd (U : List Label) (l : Label) : Label :=
  match U.find? (fun u => u.name == l.name) with
  | some u => { l with description := u.description,
                       color := u.color.map strLower,
                       w3c := some true }
  | none => l

/-- The claim's newly-adopted record: name and description copied verbatim,
color lower-cased, `w3c = true`. -/
def mkNew (u : Label) : Label :=
  { name := u.name, description := u.description, color := u.color.map strLower,
    w3c := some true, url_exclude_is_open := none }

/-- The reference merge result stated by claim C1: updated local records
followed by the newly-adopted upstream records whose names do not occur
locally. -/
def referenceMerge (L U : List Label) : List Label :=
  L.map (refUpd U) ++
    (U.filter (fun u => L.all (fun l => !(l.name == u.name)))).map mkNew

/-- The index the code builds when upstream names are unique: the entries
`(name, position)` in feed order. -/
def idxOf : List Label → Nat → List (String × Nat)
  | [], _ => []
  | u :: rest, i =>
    match u.name with
    | some n => (n, i) :: idxOf rest (i + 1)
    | none => idxOf rest (i + 1)

theorem keys_idxOf : ∀ (V : List Label) (i : Nat),
    (idxOf V i).map Prod.fst = namesOf V := by
  intro V
  induction V with
  | nil => intro i; rfl
  | cons u rest ih =>
    intro i
    cases hn : u.name with
    | none => simp [idxOf, hn, namesOf_cons_none hn, ih]
    | some n => simp [idxOf, hn, namesOf_cons_some hn, ih]

theorem insertIdx_append : ∀ (idx : List (String × Nat)) (n : String) (i : Nat),
    (∀ p ∈ idx, p.1 ≠ n) → insertIdx idx n i = idx ++ [(n, i)] := by
  intro idx n i
  induction idx with
  | nil => intro _; rfl
  | cons q rest ih =>
    intro h
    obtain ⟨m, k⟩ := q
    have hm : m ≠ n := h (m, k) (List.mem_cons_self _ _)
    simp [insertIdx, hm, ih (fun p hp => h p (List.mem_cons_of_mem _ hp))]

theorem buildIndexAux_eq_idxOf : ∀ (ls : List Label) (i : Nat) (acc : List (String × Nat)),
    (∀ u ∈ ls, (u.name).isSome = true) → (namesOf ls).Nodup →
    (∀ p ∈ acc, p.1 ∉ namesOf ls) →
    buildIndexAux ls i acc = Except.ok (acc ++ idxOf ls i) := by
  intro ls
  induction ls with
  | nil => intro i acc _ _ _; simp [buildIndexAux, idxOf]
  | cons u rest ih =>
    intro i acc hnamed hnd hacc
    obtain ⟨n, hn⟩ := Option.isSome_iff_exists.mp (hnamed u (List.mem_cons_self _ _))
    have hnd' : (n :: namesOf rest).Nodup := namesOf_cons_some hn ▸ hnd
    have hins : insertIdx acc n i = acc ++ [(n, i)] :=
      insertIdx_append acc n i (fun p hp hpn =>
        hacc p hp (namesOf_cons_some hn ▸ hpn ▸ List.mem_cons_self _ _))
    have ihr := ih (i + 1) (acc ++ [(n, i)])
      (fun v hv => hnamed v (List.mem_cons_of_mem _ hv))
      (List.Nodup.of_cons hnd')
      (fun p hp => by
        rcases List.mem_append.mp hp with h' | h'
        · exact fun hmem => hacc p h' (namesOf_cons_some hn ▸ List.mem_cons_of_mem _ hmem)
        · have : p = (n, i) := by simpa using h'
          subst this
          exact (List.nodup_cons.mp hnd').1)
    simp [buildIndexAux, hn, hins, ihr, idxOf, List.append_assoc]

theorem lookupIdx_filter : ∀ (idx : List (String × Nat)) (P : String × Nat → Bool) (n : String),
    (∀ j, P (n, j) = true) → lookupIdx (idx.filter P) n = lookupIdx idx n := by
  intro idx P n hP
  induction idx with
  | nil => rfl
  | cons q rest ih =>
    obtain ⟨m, k⟩ := q
    by_cases hm : m = n
    · subst hm
      simp [List.filter_cons, hP k, lookupIdx]
    · cases hPm : P (m, k) with
      | true => simp [List.filter_cons, hPm, lookupIdx, hm, ih]
      | false => simp [List.filter_cons, hPm, lookupIdx, hm, ih]

theorem removeIdx_eq_filter : ∀ (idx : List (String × Nat)) (n : String),
    ((idx.map Prod.fst).Nodup) →
    removeIdx idx n = idx.filter (fun p => !(decide (p.1 = n))) := by
  intro idx n
  induction idx with
  | nil => intro _; rfl
  | cons q rest ih =>
    intro hnd
    obtain ⟨m, k⟩ := q
    simp only [List.map_cons, List.nodup_cons] at hnd
    by_cases hm : m = n
    · subst hm
      have hall : rest.filter (fun p => !(decide (p.1 = m))) = rest :=
        List.filter_eq_self.mpr (fun p hp => by
          have hne : p.1 ≠ m := fun e => hnd.1 (e ▸ List.mem_map_of_mem Prod.fst hp)
          simp [hne])
      simp [removeIdx, List.filter_cons, hall]
    · simp [removeIdx, List.filter_cons, hm, ih hnd.2]

theorem lookupIdx_idxOf_spec : ∀ (V : List Label) (i : Nat) (n : String),
    (∀ u ∈ V, (u.name).isSome = true) →
    (V.find? (fun u => u.name == some n) = none ∧ lookupIdx (idxOf V i) n = none) ∨
    (∃ k u, lookupIdx (idxOf V i) n = some (i + k) ∧ V[k]? = some u ∧
      V.find? (fun u => u.name == some n) = some u ∧ u.name = some n) := by
  intro V
  induction V with
  | nil => intro i n _; exact Or.inl ⟨rfl, rfl⟩
  | cons u rest ih =>
    intro i n hnamed
    obtain ⟨m, hm⟩ := Option.isSome_iff_exists.mp (hnamed u (List.mem_cons_self _ _))
    by_cases hmn : m = n
    · subst hmn
      refine Or.inr ⟨0, u, ?_, by simp, ?_, hm⟩
      · simp [idxOf, hm, lookupIdx]
      · simp [List.find?, hm]
    · have hb : (m == n) = false := beq_eq_false_iff_ne.mpr hmn
      rcases ih (i + 1) n (fun v hv => hnamed v (List.mem_cons_of_mem _ hv)) with
        ⟨hf, hl⟩ | ⟨k, u', hl, hg, hf, hn'⟩
      · refine Or.inl ⟨?_, ?_⟩
        · simp [List.find?, hm, hb, hf]
        · simp [idxOf, hm, lookupIdx, hmn, hl]
      · refine Or.inr ⟨k + 1, u', ?_, by simpa using hg, ?_, hn'⟩
        · simp only [idxOf, hm, lookupIdx, if_neg hmn, hl]
          congr 1
          omega
        · simp [List.find?, hm, hb, hf]

theorem filter_out_name (idx : List (String × Nat)) (ns : List String) (n : String) :
    (idx.filter (fun p => !(decide (p.1 ∈ ns)))).filter (fun p => !(decide (p.1 = n))) =
      idx.filter (fun p => !(decide (p.1 ∈ ns ++ [n]))) := by
  rw [List.filter_filter]
  refine List.filter_congr (fun p hp => ?_)
  by_cases h1 : p.1 ∈ ns <;> by_cases h2 : p.1 = n <;> simp [h1, h2, List.mem_append]

theorem keys_filter_nodup {idx : List (String × Nat)} {P : String × Nat → Bool}
    (h : (idx.map Prod.fst).Nodup) : ((idx.filter P).map Prod.fst).Nodup :=
  ((idx.filter_sublist).map Prod.fst).nodup h

/-- The merge loop under unique names, relative to an index holding exactly
the upstream entries whose names are not in the already-consumed list `ns`:
it produces the claim's per-record updates and consumes exactly the entries
named by the local records. -/
theorem mergeLoop_ref : ∀ (L : List Label) (ns : List String) (U : List Label),
    (∀ l ∈ L, (l.name).isSome = true) → (namesOf L).Nodup →
    (∀ u ∈ U, (u.name).isSome = true ∧ (u.description).isSome = true ∧
      (u.color).isSome = true) →
    (namesOf U).Nodup →
    (∀ l ∈ L, ∀ n, l.name = some n → n ∉ ns) →
    (∀ l ∈ L, (l.w3c).isSome = true → ∃ n, l.name = some n ∧ n ∈ namesOf U) →
    mergeLoop L ((idxOf U 0).filter (fun p => !(decide (p.1 ∈ ns)))) U =
      Except.ok (L.map (refUpd U),
        (idxOf U 0).filter (fun p => !(decide (p.1 ∈ ns ++ namesOf L)))) := by
  intro L
  induction L with
  | nil =>
    intro ns U _ _ _ _ _ _
    simp [mergeLoop, namesOf]
  | cons l rest ih =>
    intro ns U hLnamed hLnd hUwf hUnd hfree habort
    obtain ⟨n, hn⟩ := Option.isSome_iff_exists.mp (hLnamed l (List.mem_cons_self _ _))
    have hLnd' : (n :: namesOf rest).Nodup := namesOf_cons_some hn ▸ hLnd
    have hnotrest : n ∉ namesOf rest := (List.nodup_cons.mp hLnd').1
    have hfreen : n ∉ ns := hfree l (List.mem_cons_self _ _) n hn
    have hPn : ∀ j, (fun p : String × Nat => !(decide (p.1 ∈ ns))) (n, j) = true := by
      intro j
      simp [hfreen]
    have hlf := lookupIdx_filter (idxOf U 0) (fun p => !(decide (p.1 ∈ ns))) n hPn
    rcases lookupIdx_idxOf_spec U 0 n (fun u hu => (hUwf u hu).1) with
      ⟨hf, hl⟩ | ⟨k, u, hl, hg, hf, hnm⟩
    · -- name not found upstream: the record is left unchanged
      have hninU : n ∉ namesOf U := by
        intro hmem'
        obtain ⟨u, hu, hun⟩ := List.mem_filterMap.mp hmem'
        have hcontra := List.find?_eq_none.mp hf u hu
        rw [hun] at hcontra
        simp at hcontra
      have hW : (l.w3c).isSome = false := by
        cases hwc : (l.w3c).isSome with
        | false => rfl
        | true =>
          obtain ⟨n', hn', hmem'⟩ := habort l (List.mem_cons_self _ _) hwc
          rw [hn] at hn'
          injection hn' with he
          subst he
          exact absurd hmem' hninU
      have hrefl : refUpd U l = l := by
        simp [refUpd, hn, hf]
      have hlft : lookupIdx ((idxOf U 0).filter (fun p => !(decide (p.1 ∈ ns)))) n = none :=
        hlf.trans hl
      have ihr := ih ns U (fun l' hl' => hLnamed l' (List.mem_cons_of_mem _ hl'))
        (List.Nodup.of_cons hLnd')
        hUwf hUnd
        (fun l' hl' n' hn' => hfree l' (List.mem_cons_of_mem _ hl') n' hn')
        (fun l' hl' hw => habort l' (List.mem_cons_of_mem _ hl') hw)
      have hfiltereq : (idxOf U 0).filter (fun p => !(decide (p.1 ∈ ns ++ namesOf rest))) =
          (idxOf U 0).filter (fun p => !(decide (p.1 ∈ ns ++ namesOf (l :: rest)))) := by
        refine List.filter_congr (fun p hp => ?_)
        have hpkey : p.1 ∈ namesOf U := by
          rw [← keys_idxOf U 0]
          exact List.mem_map_of_mem Prod.fst hp
        have hpn : p.1 ≠ n := fun e => hninU (e ▸ hpkey)
        rw [namesOf_cons_some hn]
        simp [List.mem_append, hpn]
      rw [hfiltereq] at ihr
      simp only [mergeLoop, hn, hlft, if_neg (by simp [hW] : ¬ (l.w3c).isSome = true), ihr,
        List.map_cons, hrefl]
    · -- name found upstream at position k: overwrite and consume
      obtain ⟨-, hd', hc'⟩ := hUwf u (List.getElem?_mem hg)
      obtain ⟨d, hd⟩ := Option.isSome_iff_exists.mp hd'
      obtain ⟨c, hc⟩ := Option.isSome_iff_exists.mp hc'
      have hl0 : lookupIdx ((idxOf U 0).filter (fun p => !(decide (p.1 ∈ ns)))) n = some k := by
        rw [hlf, hl]
        simp
      have hupd : refUpd U l = { l with description := some d,
                                        color := some (strLower c),
                                        w3c := some true } := by
        simp [refUpd, hn, hf, hd, hc]
      have hrem : removeIdx ((idxOf U 0).filter (fun p => !(decide (p.1 ∈ ns)))) n =
          (idxOf U 0).filter (fun p => !(decide (p.1 ∈ ns ++ [n]))) := by
        rw [removeIdx_eq_filter _ _ (keys_filter_nodup (keys_idxOf U 0 ▸ hUnd))]
        exact filter_out_name (idxOf U 0) ns n
      have ihr := ih (ns ++ [n]) U (fun l' hl' => hLnamed l' (List.mem_cons_of_mem _ hl'))
        (List.Nodup.of_cons hLnd')
        hUwf hUnd
        (fun l' hl' n' hn' hmem' => by
          rcases List.mem_append.mp hmem' with h' | h'
          · exact hfree l' (List.mem_cons_of_mem _ hl') n' hn' h'
          · have hnn : n' = n := by simpa using h'
            subst hnn
            exact hnotrest (mem_namesOf hl' hn'))
        (fun l' hl' hw => habort l' (List.mem_cons_of_mem _ hl') hw)
      have hassoc : (ns ++ [n]) ++ namesOf rest = ns ++ namesOf (l :: rest) := by
        rw [namesOf_cons_some hn, List.append_assoc]
        rfl
      simp only [hassoc] at ihr
      simp only [mergeLoop, hn, hl0, hg, hd, hc, hrem, ihr, List.map_cons, hupd]

/-- The append loop over the unconsumed index entries (those whose keys are
not among the already-consumed names `ns`) produces exactly the
newly-adopted records of the claim, in feed order. -/
theorem appendNew_filter_ref : ∀ (V : List Label) (i : Nat) (ns : List String)
    (U : List Label), (∀ k, V[k]? = U[i + k]?) →
    (∀ u ∈ V, (u.name).isSome = true ∧ (u.description).isSome = true ∧
      (u.color).isSome = true) →
    appendNew ((idxOf V i).filter (fun p => !(decide (p.1 ∈ ns)))) U =
      Except.ok ((V.filter (fun u => match u.name with
        | some n => !(decide (n ∈ ns))
        | none => false)).map mkNew) := by
  intro V
  induction V with
  | nil => intro i ns U _ _; simp [idxOf, appendNew]
  | cons u rest ih =>
    intro i ns U halign hwf
    obtain ⟨hn', hd', hc'⟩ := hwf u (List.mem_cons_self _ _)
    obtain ⟨n, hn⟩ := Option.isSome_iff_exists.mp hn'
    obtain ⟨d, hd⟩ := Option.isSome_iff_exists.mp hd'
    obtain ⟨c, hc⟩ := Option.isSome_iff_exists.mp hc'
    have hget : U[i]? = some u := by
      have h0 := halign 0
      simpa using h0.symm
    have halign' : ∀ k, rest[k]? = U[i + 1 + k]? := by
      intro k
      have hk := halign (k + 1)
      rw [List.getElem?_cons_succ] at hk
      rw [hk]
      congr 1
      omega
    have ihr := ih (i + 1) ns U halign' (fun v hv => hwf v (List.mem_cons_of_mem _ hv))
    by_cases hns : n ∈ ns
    · simp [idxOf, hn, List.filter_cons, hns, ihr]
    · have hmk : mkNew u = { name := some n, description := some d,
                             color := some (strLower c), w3c := some true,
                             url_exclude_is_open := none } := by
        simp [mkNew, hn, hd, hc]
      simp [idxOf, hn, List.filter_cons, hns, appendNew, hget, hd, hc, ihr, hmk]

theorem refUpd_name (U : List Label) (l : Label) : (refUpd U l).name = l.name := by
  simp only [refUpd]
  split <;> rfl

/-- C1 (amended): with every local record named, local names unique, every
upstream record carrying name, description and color, upstream names unique,
and every local record that carries a `w3c` key having its name upstream,
the merge produces exactly the claim's reference result, and that result has
no duplicate names. -/
theorem C1_merge_reference (L U : List Label)
    (hLnamed : ∀ l ∈ L, (l.name).isSome = true) (hLnd : (namesOf L).Nodup)
    (hUwf : ∀ u ∈ U, (u.name).isSome = true ∧ (u.description).isSome = true ∧
      (u.color).isSome = true)
    (hUnd : (namesOf U).Nodup)
    (hw3c : ∀ l ∈ L, (l.w3c).isSome = true → ∃ n, l.name = some n ∧ n ∈ namesOf U) :
    mergeW3C L U = Except.ok (referenceMerge L U) ∧
      (namesOf (referenceMerge L U)).Nodup := by
  have hbi : buildIndex U = Except.ok (idxOf U 0) := by
    have := buildIndexAux_eq_idxOf U 0 [] (fun u hu => (hUwf u hu).1) hUnd
      (fun p hp => absurd hp (List.not_mem_nil p))
    simpa [buildIndex] using this
  have hml := mergeLoop_ref L [] U hLnamed hLnd hUwf hUnd
    (fun l hl n hn hmem => absurd hmem (List.not_mem_nil n)) hw3c
  have hfid : (idxOf U 0).filter (fun p => !(decide (p.1 ∈ ([] : List String)))) =
      idxOf U 0 := by
    simp
  rw [hfid, List.nil_append] at hml
  have hap := appendNew_filter_ref U 0 (namesOf L) U (fun k => by simp) hUwf
  have hpredeq : U.filter (fun u => match u.name with
      | some n => !(decide (n ∈ namesOf L))
      | none => false) =
      U.filter (fun u => L.all (fun l => !(l.name == u.name))) := by
    refine List.filter_congr (fun u hu => ?_)
    obtain ⟨n, hn⟩ := Option.isSome_iff_exists.mp (hUwf u hu).1
    rw [hn]
    rw [Bool.eq_iff_iff]
    constructor
    · intro hnot
      simp only [Bool.not_eq_true', decide_eq_false_iff_not] at hnot
      refine List.all_eq_true.mpr (fun l hl => ?_)
      have : l.name ≠ some n := fun e => hnot (mem_namesOf hl e)
      simp [this]
    · intro hall
      simp only [Bool.not_eq_true', decide_eq_false_iff_not]
      intro hmem
      obtain ⟨l, hl, hln⟩ := List.mem_filterMap.mp hmem
      have := List.all_eq_true.mp hall l hl
      rw [hln] at this
      simp at this
  constructor
  · simp only [mergeW3C, hbi, hml, hap, referenceMerge, hpredeq]
  · have hUnd' : (U.filterMap (fun l => l.name)).Nodup := hUnd
    have hsubnd : (namesOf (U.filter (fun u => L.all (fun l =>
        !(l.name == u.name))))).Nodup := by
      unfold namesOf
      exact ((List.filter_sublist U).filterMap (fun l => l.name)).nodup hUnd'
    have hdisj : (namesOf L).Disjoint (namesOf (U.filter (fun u =>
        L.all (fun l => !(l.name == u.name))))) := by
      intro x hxL hxF
      obtain ⟨u, hu, hun⟩ := List.mem_filterMap.mp hxF
      have hkeep := (List.mem_filter.mp hu).2
      obtain ⟨l, hl, hln⟩ := List.mem_filterMap.mp hxL
      have := List.all_eq_true.mp hkeep l hl
      rw [hln, hun] at this
      simp at this
    have hsplit : namesOf (referenceMerge L U) = namesOf L ++
        namesOf (U.filter (fun u => L.all (fun l => !(l.name == u.name)))) := by
      rw [referenceMerge]
      unfold namesOf
      rw [List.filterMap_append]
      congr 1
      · rw [List.filterMap_map]
        exact List.filterMap_congr (fun l _ => by simp [Function.comp, refUpd_name])
      · rw [List.filterMap_map]
        exact List.filterMap_congr (fun u _ => rfl)
    rw [hsplit]
    exact hLnd.append hsubnd hdisj

/-- C1 counterexample: a local record carrying `w3c = false` whose name is
absent upstream satisfies the claim's hypotheses (unique names; every
`w3c:true` record — there is none — found upstream), yet the code aborts on
the mere presence of the `w3c` key while the claimed reference result leaves
the record unchanged. -/
theorem C1_counterexample :
    mergeW3C [⟨some "x", some "d", some "c", some false, none⟩] [] =
      Except.error MergeError.consistency ∧
    referenceMerge [⟨some "x", some "d", some "c", some false, none⟩] [] =
      [⟨some "x", some "d", some "c", some false, none⟩] ∧
    mergeW3C [⟨some "x", some "d", some "c", some false, none⟩] [] ≠
      Except.ok (referenceMerge [⟨some "x", some "d", some "c", some false, none⟩] []) := by
  refine ⟨rfl, rfl, ?_⟩
  decide

/-- C1 witness: `C1_merge_reference` on a two-record feed where one name
matches a local record and the other is newly adopted. -/
theorem C1_witness :
    mergeW3C [⟨some "a", some "old", some "AAA", none, none⟩]
      [⟨some "a", some "newd", some "BBB", none, none⟩,
       ⟨some "b", some "bd", some "CCC", none, none⟩] =
    Except.ok (referenceMerge [⟨some "a", some "old", some "AAA", none, none⟩]
      [⟨some "a", some "newd", some "BBB", none, none⟩,
       ⟨some "b", some "bd", some "CCC", none, none⟩]) :=
  (C1_merge_reference _ _ (by decide) (by decide) (by decide) (by decide)
    (fun l hl hw => by
      rcases List.mem_singleton.mp hl with rfl
      simp at hw)).1

/-!
## The diff/sync engine (claims C4, C5, C6)
-/

theorem deletePhase_trace : ∀ (names : List String) (resp : Resp) (t : List Op),
    (deletePhase resp names t).1 = names.map Op.delete := by
  intro names
  induction names with
  | nil => intro resp t; rfl
  | cons n rest ih =>
    intro resp t
    simp [deletePhase, ih]

theorem deletePhase_err_name_mem : ∀ (names : List String) (resp : Resp) (t : List Op)
    (nm : String) (s : Nat),
    RemoteFailure.deleting nm s ∈ (deletePhase resp names t).2 →
    nm ∈ names ∧ s ≠ 200 ∧ s ≠ 404 := by
  intro names
  induction names with
  | nil => intro resp t nm s h; simp [deletePhase] at h
  | cons n rest ih =>
    intro resp t nm s h
    simp only [deletePhase] at h
    rcases List.mem_append.mp h with h | h
    · by_cases hs : (resp t (Op.delete n) ≠ 200 && resp t (Op.delete n) ≠ 404) = true
      · rw [if_pos hs] at h
        simp only [List.mem_singleton] at h
        injection h with h1 h2
        subst h1
        subst h2
        simp only [ne_eq, Bool.and_eq_true, decide_eq_true_eq] at hs
        exact ⟨List.mem_cons_self _ _, hs⟩
      · rw [if_neg hs] at h
        simp at h
    · obtain ⟨hmem, hs⟩ := ih resp (t ++ [Op.delete n]) nm s h
      exact ⟨List.mem_cons_of_mem _ hmem, hs⟩

/-- Per-default-name error semantics of the delete phase: the failure entry
for the `k`-th name is reported exactly when the status of its delete (issued
after the first `k` deletes) is neither 200 nor 404. -/
theorem deletePhase_err_iff : ∀ (names : List String) (resp : Resp) (t : List Op)
    (k : Nat) (n : String), names.Nodup → names[k]? = some n →
    ∀ s', (RemoteFailure.deleting n s' ∈ (deletePhase resp names t).2 ↔
      (s' = resp (t ++ (names.take k).map Op.delete) (Op.delete n) ∧
        s' ≠ 200 ∧ s' ≠ 404)) := by
  intro names
  induction names with
  | nil => intro resp t k n _ hk; simp at hk
  | cons m rest ih =>
    intro resp t k n hnd hk s'
    obtain ⟨hm, hndr⟩ := List.nodup_cons.mp hnd
    cases k with
    | zero =>
      simp only [List.getElem?_cons_zero, Option.some.injEq] at hk
      subst hk
      simp only [deletePhase, List.take_zero, List.map_nil, List.append_nil]
      constructor
      · intro h
        rcases List.mem_append.mp h with h | h
        · by_cases hs : (resp t (Op.delete m) ≠ 200 && resp t (Op.delete m) ≠ 404) = true
          · rw [if_pos hs] at h
            simp only [List.mem_singleton] at h
            injection h with h1 h2
            subst h2
            simp only [ne_eq, Bool.and_eq_true, decide_eq_true_eq] at hs
            exact ⟨rfl, hs⟩
          · rw [if_neg hs] at h
            simp at h
        · exact absurd (deletePhase_err_name_mem rest resp _ m s' h).1 hm
      · intro hcond
        obtain ⟨hs', h200, h404⟩ := hcond
        subst hs'
        have hs : (resp t (Op.delete m) ≠ 200 && resp t (Op.delete m) ≠ 404) = true := by
          simp [h200, h404]
        refine List.mem_append.mpr (Or.inl ?_)
        rw [if_pos hs]
        exact List.mem_singleton.mpr rfl
    | succ k' =>
      simp only [List.getElem?_cons_succ] at hk
      have hnm : n ≠ m := by
        intro e
        exact hm (e ▸ List.getElem?_mem hk)
      have ihr := ih resp (t ++ [Op.delete m]) k' n hndr hk s'
      simp only [List.append_assoc, List.singleton_append] at ihr
      simp only [deletePhase, List.take_succ_cons, List.map_cons, List.cons_append]
      constructor
      · intro h
        rcases List.mem_append.mp h with h | h
        · by_cases hs : (resp t (Op.delete m) ≠ 200 && resp t (Op.delete m) ≠ 404) = true
          · rw [if_pos hs] at h
            simp only [List.mem_singleton] at h
            injection h with h1 h2
            exact absurd h1 hnm
          · rw [if_neg hs] at h
            simp at h
        · exact ihr.mp h
      · intro hcond
        exact List.mem_append.mpr (Or.inr (ihr.mpr hcond))

/-- C4: when the PATCH for a record returns 404, exactly one POST of the
sanitized record follows; a POST status other than 201 yields exactly one
reported `Adding` failure for that record, and the loop then proceeds to the
remaining records with no retry and no abort. -/
theorem C4_create_fallback (resp : Resp) (t : List Op) (l : Label)
    (rest : List Label) (d n : String)
    (hd : l.description = some d) (hn : (sanitize l d).name = some n)
    (h404 : resp t (Op.update n (sanitize l d)) = 404) :
    updatePhase resp t (l :: rest) =
      (Op.update n (sanitize l d) :: Op.create (sanitize l d) ::
        (updatePhase resp
          (t ++ [Op.update n (sanitize l d), Op.create (sanitize l d)]) rest).1,
       (if resp (t ++ [Op.update n (sanitize l d)]) (Op.create (sanitize l d)) ≠ 201
        then [RemoteFailure.adding n
          (resp (t ++ [Op.update n (sanitize l d)]) (Op.create (sanitize l d)))]
        else []) ++
        (updatePhase resp
          (t ++ [Op.update n (sanitize l d), Op.create (sanitize l d)]) rest).2.1,
       (updatePhase resp
         (t ++ [Op.update n (sanitize l d), Op.create (sanitize l d)]) rest).2.2) := by
  simp only [updatePhase, hd, hn, h404]
  rw [if_pos trivial]

/-- C4 witness: `C4_create_fallback` on a one-record set against a store
answering 404 to updates and 500 to creates — the create is attempted once,
one `Adding` failure naming the record is reported, and the run finishes. -/
theorem C4_witness :
    updatePhase
      (fun _ op => match op with
        | Op.update _ _ => 404
        | Op.create _ => 500
        | Op.delete _ => 200)
      [] [⟨some "new-label", some "x", some "fff", none, none⟩] =
    ([Op.update "new-label" ⟨some "new-label", some "x", some "fff", none, none⟩,
      Op.create ⟨some "new-label", some "x", some "fff", none, none⟩],
     [RemoteFailure.adding "new-label" 500], true) := by
  have h := C4_create_fallback
    (fun _ op => match op with
      | Op.update _ _ => 404
      | Op.create _ => 500
      | Op.delete _ => 200)
    [] ⟨some "new-label", some "x", some "fff", none, none⟩ [] "x" "new-label"
    rfl rfl rfl
  exact h.trans (by decide)

theorem updatePhase_no_delete : ∀ (labels : List Label) (resp : Resp) (t : List Op)
    (name : String), Op.delete name ∉ (updatePhase resp t labels).1 := by
  intro labels
  induction labels with
  | nil => intro resp t name h; simp [updatePhase] at h
  | cons l rest ih =>
    intro resp t name h
    simp only [updatePhase] at h
    cases hd : l.description with
    | none => rw [hd] at h; simp at h
    | some d =>
      rw [hd] at h
      simp only at h
      cases hn : (sanitize l d).name with
      | none => rw [hn] at h; simp at h
      | some n =>
        rw [hn] at h
        simp only at h
        by_cases h404 : resp t (Op.update n (sanitize l d)) = 404
        · rw [if_pos h404] at h
          simp only [List.mem_cons] at h
          rcases h with h | h | h
          · exact Op.noConfusion h
          · exact Op.noConfusion h
          · exact ih resp _ name h
        · rw [if_neg h404] at h
          by_cases h200 : resp t (Op.update n (sanitize l d)) ≠ 200
          · rw [if_pos h200] at h
            simp only [List.mem_cons] at h
            rcases h with h | h
            · exact Op.noConfusion h
            · exact ih resp _ name h
          · rw [if_neg h200] at h
            simp only [List.mem_cons] at h
            rcases h with h | h
            · exact Op.noConfusion h
            · exact ih resp _ name h

theorem updatePhase_no_deleting_failure : ∀ (labels : List Label) (resp : Resp)
    (t : List Op) (name : String) (s : Nat),
    RemoteFailure.deleting name s ∉ (updatePhase resp t labels).2.1 := by
  intro labels
  induction labels with
  | nil => intro resp t name s h; simp [updatePhase] at h
  | cons l rest ih =>
    intro resp t name s h
    simp only [updatePhase] at h
    cases hd : l.description with
    | none => rw [hd] at h; simp at h
    | some d =>
      rw [hd] at h
      simp only at h
      cases hn : (sanitize l d).name with
      | none => rw [hn] at h; simp at h
      | some n =>
        rw [hn] at h
        simp only at h
        by_cases h404 : resp t (Op.update n (sanitize l d)) = 404
        · rw [if_pos h404] at h
          rcases List.mem_append.mp h with h | h
          · by_cases h201 : resp (t ++ [Op.update n (sanitize l d)])
              (Op.create (sanitize l d)) ≠ 201
            · rw [if_pos h201] at h
              simp only [List.mem_singleton] at h
              exact RemoteFailure.noConfusion h
            · rw [if_neg h201] at h
              simp at h
          · exact ih resp _ name s h
        · rw [if_neg h404] at h
          by_cases h200 : resp t (Op.update n (sanitize l d)) ≠ 200
          · rw [if_pos h200] at h
            simp only [List.mem_cons] at h
            rcases h with h | h
            · exact RemoteFailure.noConfusion h
            · exact ih resp _ name s h
          · rw [if_neg h200] at h
            exact ih resp _ name s h

/-- C5: over a whole sync run, every delete issued to the remote store names
one of the seven fixed default labels — no other name is ever deleted,
whatever the local records and the store's responses. -/
theorem C5_no_foreign_delete (resp : Resp) (labels : List Label) (name : String)
    (h : Op.delete name ∈ (adjust_repository_labels resp labels).1) :
    name ∈ defaultLabels := by
  simp only [adjust_repository_labels] at h
  rcases List.mem_append.mp h with h' | h'
  · rw [deletePhase_trace] at h'
    obtain ⟨m, hm, he⟩ := List.mem_map.mp h'
    injection he with he'
    exact he' ▸ hm
  · exact absurd h' (updatePhase_no_delete labels resp _ name)

/-- C5 witness: in a run against an all-200 store with no local records, the
only deletes in the trace are the default ones; `C5_no_foreign_delete`
recovers `"bug" ∈ defaultLabels` from the delete of `"bug"` in the trace. -/
theorem C5_witness :
    Op.delete "bug" ∈ (adjust_repository_labels (fun _ _ => 200) []).1 ∧
    "bug" ∈ defaultLabels :=
  ⟨by decide, C5_no_foreign_delete (fun _ _ => 200) [] "bug" (by decide)⟩

/-- C6: every sync run opens with exactly the seven default-label deletes, in
order, and no further delete ever follows; a delete answered 200 or 404
reports nothing, any other status reports exactly one `Deleting` failure for
that name, and the run then continues into the update phase regardless. -/
theorem C6_default_deletes (resp : Resp) (labels : List Label) :
    ((adjust_repository_labels resp labels).1 = defaultLabels.map Op.delete ++
      (updatePhase resp (defaultLabels.map Op.delete) labels).1) ∧
    (∀ nm, Op.delete nm ∉ (updatePhase resp (defaultLabels.map Op.delete) labels).1) ∧
    ((adjust_repository_labels resp labels).2.1 = (deletePhase resp defaultLabels []).2 ++
      (updatePhase resp (defaultLabels.map Op.delete) labels).2.1) ∧
    (∀ nm s, RemoteFailure.deleting nm s ∉
      (updatePhase resp (defaultLabels.map Op.delete) labels).2.1) ∧
    (∀ nm s, RemoteFailure.deleting nm s ∈ (deletePhase resp defaultLabels []).2 →
      nm ∈ defaultLabels ∧ s ≠ 200 ∧ s ≠ 404) ∧
    (∀ k n, defaultLabels[k]? = some n → ∀ s',
      (RemoteFailure.deleting n s' ∈ (deletePhase resp defaultLabels []).2 ↔
        (s' = resp ((defaultLabels.take k).map Op.delete) (Op.delete n) ∧
          s' ≠ 200 ∧ s' ≠ 404))) := by
  have htr := deletePhase_trace defaultLabels resp []
  refine ⟨?_, ?_, ?_, ?_, ?_, ?_⟩
  · simp only [adjust_repository_labels, htr]
  · exact fun nm => updatePhase_no_delete labels resp _ nm
  · simp only [adjust_repository_labels, htr]
  · exact fun nm s => updatePhase_no_deleting_failure labels resp _ nm s
  · exact fun nm s h => deletePhase_err_name_mem defaultLabels resp [] nm s h
  · intro k n hk s'
    have := deletePhase_err_iff defaultLabels resp [] k n (by decide) hk s'
    simpa using this

/-- C6 witness: against a store answering 500 to every request, the first
default label's delete failure is reported; `C6_default_deletes` places it in
the delete-phase report with a non-200/404 status. -/
theorem C6_witness :
    RemoteFailure.deleting "bug" 500 ∈
      (deletePhase (fun _ _ => 500) defaultLabels []).2 ∧
    "bug" ∈ defaultLabels ∧ (500 : Nat) ≠ 200 ∧ (500 : Nat) ≠ 404 :=
  ⟨by decide,
   (C6_default_deletes (fun _ _ => 500) []).2.2.2.2.1 "bug" 500 (by decide)⟩

end Labels
